import Mathlib

/-!
Shallow embedding of the Misinfo-Detector research-orchestration core:
`backend/app/services/agentic_controller.py`, `credibility.py`,
`research_agent.py` and `routers/detect.py`.

Modelling conventions:
* Python `float` values are modelled as real numbers.
* Python strings are Lean `String`s; `str.lower()` is modelled by mapping
  `Char.toLower` over the characters, and `str.split()` over the character
  list with the ASCII whitespace set.
* `round(x, 3)` is modelled as rounding half-up to a multiple of 1/1000
  (CPython rounds floats half-to-even; the two differ only at exact
  `.0005` ties, which none of the statements below depends on).
* `hashlib.sha1` digests are modelled by an injective tagging function
  (SHA-1 collisions are ignored).
* External collaborators (search tool, scraper, LLM, `re`/`json` parsing of
  LLM output, `networkx` availability) are passed in as explicit data,
  mirroring the dependency-injection structure of the source.
-/

/-- Python `str.split()` whitespace test (space, TAB, LF, CR, VT, FF). -/
def pyIsSpace (c : Char) : Bool :=
  c == ' ' || c == '\t' || c == '\n' || c == '\r' || c == '\x0b' || c == '\x0c'

/-- Helper for `splitWS`; `acc` is the current word, reversed. -/
def splitWSAux : List Char → List Char → List (List Char)
  | [], acc => if acc.isEmpty then [] else [acc.reverse]
  | c :: cs, acc =>
    if pyIsSpace c then
      if acc.isEmpty then splitWSAux cs [] else acc.reverse :: splitWSAux cs []
    else splitWSAux cs (c :: acc)

/-- Python `t.split()`: split on whitespace runs, dropping empty pieces. -/
def splitWS (cs : List Char) : List (List Char) := splitWSAux cs []

/-- Python `" ".join(words)`. -/
def joinSpace : List (List Char) → List Char
  | [] => []
  | [w] => w
  | w :: ws => w ++ ' ' :: joinSpace ws

/-- Python `s.rsplit(" ", 1)[0]`: everything before the last space, or the
whole string when it contains no space. -/
def dropLastTok (cs : List Char) : List Char :=
  if ' ' ∈ cs then cs.take (cs.length - 1 - cs.reverse.findIdx (· == ' ')) else cs

/-- Embedding of `_norm_text(t, length)` (agentic_controller.py, lines 41-44):
collapse internal whitespace; if the result exceeds the budget, cut at the
budget, drop the trailing partial word, and append an ellipsis. -/
def normText (t : String) (limit : ℕ) : String :=
  if t = "" then ""
  else if (joinSpace (splitWS t.data)).length ≤ limit then
    String.mk (joinSpace (splitWS t.data))
  else
    String.mk (dropLastTok ((joinSpace (splitWS t.data)).take limit) ++ [ '.', '.', '.' ])

/-- Boolean prefix test on character lists. -/
def isPrefixB : List Char → List Char → Bool
  | [], _ => true
  | _ :: _, [] => false
  | p :: ps, s :: ss => p == s && isPrefixB ps ss

/-- Boolean substring test on character lists. -/
def containsB (p : List Char) : List Char → Bool
  | [] => p.isEmpty
  | c :: cs => isPrefixB p (c :: cs) || containsB p cs

/-- Python substring test `pat in s`. -/
def strContains (s pat : String) : Bool := containsB pat.data s.data

/-- Python `str.lower()` (ASCII case folding, which covers every constant the
source compares against). -/
def lowerStr (s : String) : String := String.mk (s.data.map Char.toLower)

/-- Embedding of `_hash_text` (SHA-1 digest), modelled as an injective tag. -/
def hashText (t : String) : String := "sha1:" ++ t

/-- Python `round(x, 3)` on a real value (half-up at ties; see the header). -/
noncomputable def round3 (x : ℝ) : ℝ := (⌊x * 1000 + 1 / 2⌋ : ℤ) / 1000

/-- One evidence dictionary, as built by `run_task_search_and_scrape` and by
the internal branch of `run` (all keys present; `relevance` holds 0 until
`normalize_and_score_evidence` fills it in). -/
structure Evidence where
  source_id : String
  url : String
  title : String
  snippet : String
  text : String
  domain : String
  score : ℝ
  relevance : ℝ

/-- Identity key of the dedup loop:
`e.get("url") or e.get("source_id") or _hash_text(e.get("snippet",""))`
(Python `or` takes the first non-empty string). -/
def keyOf (e : Evidence) : String :=
  if e.url ≠ "" then e.url
  else if e.source_id ≠ "" then e.source_id
  else hashText e.snippet

/-- Merge step of the dedup loop (lines 148-152): the item with the strictly
longer text replaces the stored one, and the stored score becomes the max of
the two scores. -/
def mergeOne (ex e : Evidence) : Evidence :=
  let kept := if ex.text.length < e.text.length then e else ex
  { kept with score := max ex.score e.score }

/-- Lookup in an insertion-ordered association list (a Python dict). -/
def findVal (k : String) : List (String × Evidence) → Option Evidence
  | [] => none
  | (k₂, v) :: rest => if k₂ = k then some v else findVal k rest

/-- Replace the value stored at key `k`, keeping its position. -/
def updateAssoc (k : String) (v : Evidence) : List (String × Evidence) → List (String × Evidence)
  | [] => []
  | (k₂, v₂) :: rest =>
    if k₂ = k then (k₂, v) :: rest else (k₂, v₂) :: updateAssoc k v rest

/-- One iteration of the dedup `for` loop over the insertion-ordered dict. -/
def insertEvidence (acc : List (String × Evidence)) (e : Evidence) : List (String × Evidence) :=
  match findVal (keyOf e) acc with
  | none => acc ++ [(keyOf e, e)]
  | some ex => updateAssoc (keyOf e) (mergeOne ex e) acc

/-- The dedup dict after the whole loop. -/
def dedupAssoc (l : List Evidence) : List (String × Evidence) := l.foldl insertEvidence []

/-- `normalized = list(dedup.values())`. -/
def dedupMerge (l : List Evidence) : List Evidence := (dedupAssoc l).map Prod.snd

/-- Domain trust heuristic of `normalize_and_score_evidence` (lines 158-160). -/
def domScore (domain : String) : ℝ :=
  if strContains domain "bbc." || strContains domain "reuters." ||
      strContains domain "nytimes." || strContains domain "theguardian." ||
      strContains domain "apnews" then 0.95 else 0.5

/-- Length factor of `normalize_and_score_evidence` (lines 161-162):
`min(1.0, log1p(max(1, len(text))) / log1p(4000))`. -/
noncomputable def lengthFactor (n : ℕ) : ℝ :=
  min 1 (Real.log (1 + ((max 1 n : ℕ) : ℝ)) / Real.log 4001)

/-- Length factor as the spec words it, for comparison with `lengthFactor`
(claim C4): `min(1.0, log(1+len(text)) / log(1+4000))`. -/
noncomputable def lengthFactorSpec (n : ℕ) : ℝ :=
  min 1 (Real.log (1 + (n : ℝ)) / Real.log 4001)

/-- Relevance of one item (line 163). -/
noncomputable def relevanceOf (e : Evidence) : ℝ :=
  round3 (domScore e.domain * e.score * (0.6 * lengthFactor e.text.length + 0.4))

/-- `item["relevance"] = ...` for one item. -/
noncomputable def setRelevance (e : Evidence) : Evidence :=
  { e with relevance := relevanceOf e }

/-- Sort relation: `normalized.sort(key=..., reverse=True)` is a stable
descending sort by `relevance`; `List.mergeSort` with this relation is the
same stable descending sort. -/
noncomputable def relLE (a b : Evidence) : Bool := decide (b.relevance ≤ a.relevance)

/-- Embedding of `AgenticResearchAgent.normalize_and_score_evidence`
(lines 138-166): dedup/merge, recompute relevance, sort descending. -/
noncomputable def normalizeAndScoreEvidence (l : List Evidence) : List Evidence :=
  ((dedupMerge l).map setRelevance).mergeSort relLE

/-- An article record as passed to `CredibilityEngine.score`. -/
structure Article where
  url : String
  title : String
  text : String

/-- A knowledge-graph payload for `_kg_centrality_score`: node identifiers as
already resolved by `n.get("id") or n.get("label") or n.get("text")`, and the
raw source/target pairs of the `links` list. (A node whose resolver yields
Python `None` makes `networkx` raise, which the source turns into the 0.5
fallback; that value also lies in every bound proved below, so the `None`
case is not modelled separately.) -/
structure KGData where
  nodes : List String
  links : List (String × String)

/-- Vertices of the `networkx` graph: nodes added first, then the endpoints
of every link whose source and target are both non-empty (Python truthiness);
`add_node` / `add_edge` collapse duplicates. -/
def kgVerts (g : KGData) : List String :=
  (g.nodes ++ (g.links.filter (fun p => p.1 != "" && p.2 != "")).flatMap
      (fun p => [p.1, p.2])).eraseDups

/-- Adjacency of the (simple, undirected) `networkx` graph. -/
def kgAdj (g : KGData) (v u : String) : Bool :=
  g.links.any (fun p => (p.1 != "" && p.2 != "") &&
    ((p.1 == v && p.2 == u) || (p.1 == u && p.2 == v)))

/-- Degree of a vertex; a self-loop counts twice, as in `networkx`. -/
def kgDegree (g : KGData) (v : String) : ℕ :=
  ((kgVerts g).filter (fun u => u != v && kgAdj g v u)).length +
    (if kgAdj g v v then 2 else 0)

/-- Embedding of `CredibilityEngine._kg_centrality_score` (credibility.py,
lines 100-121): `none` models a missing/falsy `kg_data`; otherwise, with
fewer than 2 vertices the score is 0.45, else the mean degree centrality
(`degree/(n-1)`, averaged over the `n` vertices) scaled by 1.5 and capped
at 0.95, rounded to 3 decimals. -/
noncomputable def kgCentralityScore : Option KGData → ℝ
  | none => 0.5
  | some g =>
    let verts := kgVerts g
    if verts.length < 2 then 0.45
    else
      let avg := (((verts.map (kgDegree g)).sum : ℝ) / ((verts.length : ℝ) - 1)) /
        (verts.length : ℝ)
      round3 (min 0.95 (avg * 1.5))

/-- Embedding of `CredibilityEngine._domain_reliability_score`
(credibility.py, lines 71-88). -/
def domainReliability (url : String) : ℝ :=
  if url = "" then 0.45
  else
    let u := lowerStr url
    if strContains u "bbc." || strContains u "reuters." || strContains u "nytimes." ||
        strContains u "theguardian." || strContains u "washingtonpost." ||
        strContains u "cnn." || strContains u "aljazeera." || strContains u "apnews."
      then 0.95
    else if strContains u "ieee." || strContains u "springer." || strContains u "nature." ||
        strContains u "sciencedirect." || strContains u "acm." || strContains u "nih.gov"
      then 0.85
    else if strContains u "thehindu" || strContains u "timesofindia" ||
        strContains u "indianexpress" || strContains u "lallantop"
      then 0.7
    else 0.5

/-- Number of occurrences of a character in a string. -/
def countChar (s : String) (c : Char) : ℕ := s.data.count c

/-- Embedding of `CredibilityEngine._content_score` (credibility.py,
lines 90-98). -/
noncomputable def contentScore (text : String) : ℝ :=
  if text = "" then 0.2
  else
    let n := text.length
    let ln := min 1 (Real.log (1 + (n : ℝ)) / Real.log 5001)
    let sents := countChar text '.' + countChar text '!' + countChar text '?'
    let density := min 1 ((sents : ℝ) / max 1 ((n : ℝ) / 200))
    round3 (0.5 * ln + 0.5 * density)

/-- Embedding of `CredibilityEngine._bias_penalty` (credibility.py,
lines 123-131). -/
noncomputable def biasPenalty (note : String) : ℝ :=
  if note = "" then 0
  else
    let low := lowerStr note
    if strContains low "sensational" || strContains low "opinionated" ||
        strContains low "highly biased" then 0.18
    else if strContains low "slightly biased" then 0.06
    else 0

/-- `stance` as seen by `score`: the `support` float when the stance dict has
one, `none` when the key is missing or the stance is not a dict (both giving
the 0.5 fallback). -/
def supportScore (stance : Option ℝ) : ℝ := stance.getD 0.5

/-- The weighted aggregation of `CredibilityEngine.score` before the bias
penalty is subtracted (credibility.py, line 66). The article text is stripped
(`.strip()`) before `_content_score` sees it. -/
noncomputable def rawCred (article : Article) (kg : Option KGData) (support : ℝ) : ℝ :=
  0.30 * domainReliability article.url + 0.25 * contentScore article.text.trim +
    0.30 * support + 0.15 * kgCentralityScore kg

/-- The pre-clamp score: weighted aggregation minus the bias penalty. -/
noncomputable def preClampCred (article : Article) (kg : Option KGData)
    (support : ℝ) (note : String) : ℝ :=
  rawCred article kg support - biasPenalty note

/-- Embedding of `CredibilityEngine.score` (credibility.py, lines 37-69):
clamp the pre-clamp score into `[0,1]` and round to 3 decimals. -/
noncomputable def credScore (article : Article) (kg : Option KGData)
    (stance : Option ℝ) (note : String) : ℝ :=
  round3 (max 0 (min 1 (preClampCred article kg (supportScore stance) note)))

/-- A single planned task (all fields present after backfilling). -/
structure PlanTask where
  id : String
  role : String
  prompt : String
  requires_search : Bool
deriving DecidableEq

/-- A single quote character, written by code point to keep the file free of
string-literal apostrophes. -/
def qm : String := "\x27"

/-- The deterministic fallback plan returned when the LLM capability is
unavailable (agentic_controller.py, lines 74-79). -/
def fallbackPlanUnavailable (q : String) : List PlanTask :=
  [⟨"t1", "background", "Background: define and scope " ++ qm ++ q ++ qm, true⟩,
   ⟨"t2", "evidence", "Evidence: find key studies or news pieces for " ++ qm ++ q ++ qm, true⟩,
   ⟨"t3", "implications", "Implications & open questions for " ++ qm ++ q ++ qm, false⟩]

/-- The deterministic fallback plan used after an LLM/parse failure
(agentic_controller.py, lines 102-106); the third prompt differs from the
unavailable-capability fallback. -/
def fallbackPlanError (q : String) : List PlanTask :=
  [⟨"t1", "background", "Background: define and scope " ++ qm ++ q ++ qm, true⟩,
   ⟨"t2", "evidence", "Evidence: find key studies or news pieces for " ++ qm ++ q ++ qm, true⟩,
   ⟨"t3", "implications", "Implications & recommendations for " ++ qm ++ q ++ qm, false⟩]

/-- One element of a JSON task array produced by the LLM: each field is
present or absent (field values are modelled at their expected types; only
presence or absence affects the claims below). -/
structure RawTask where
  id : Option String
  role : Option String
  prompt : Option String
  requires_search : Option Bool

/-- The `setdefault` backfilling loop (agentic_controller.py, lines 92-96):
`id` defaults to `t<i+1>`, `role` to `evidence`, `prompt` to
`Investigate: <query>`, `requires_search` to `True`. -/
def backfillTask (q : String) (i : ℕ) (t : RawTask) : PlanTask :=
  { id := t.id.getD ("t" ++ toString (i + 1)),
    role := t.role.getD "evidence",
    prompt := t.prompt.getD ("Investigate: " ++ q),
    requires_search := t.requires_search.getD true }

/-- Map with a running index, starting at `i`. -/
def mapIdxFrom (f : ℕ → α → β) : ℕ → List α → List β
  | _, [] => []
  | i, a :: as => f i a :: mapIdxFrom f (i + 1) as

/-- Observable behaviour of the LLM capability inside `plan_tasks`, at the
boundary of the external `summarize` call and the stdlib `re`/`json` calls:
the capability is unavailable; or `summarize` raises; or its response
contains no bracketed array (`re.search` finds nothing); or the bracketed
substring fails to parse as a JSON array of objects (`json.loads` or the
`setdefault` loop raises); or it parses to an array of objects. -/
inductive PlanLLM where
  | unavailable
  | raises
  | noArray
  | badParse
  | parsed (arr : List RawTask)

/-- Embedding of `AgenticResearchAgent.plan_tasks` (agentic_controller.py,
lines 67-106). Every exception raised inside the `try` block (including a
parse failure) lands in the error fallback; a successfully parsed array is
backfilled and returned as-is, whatever its length. The function is total:
the source never lets an exception escape. -/
def planTasks (llm : PlanLLM) (q : String) : List PlanTask :=
  match llm with
  | .unavailable => fallbackPlanUnavailable q
  | .raises => fallbackPlanError q
  | .noArray => fallbackPlanError q
  | .badParse => fallbackPlanError q
  | .parsed arr => mapIdxFrom (backfillTask q) 0 arr

/-- One search hit, as returned by the search tool (all keys present; a
missing `score` defaults to 1.0 at the call site, so hits are modelled with
the field already resolved). -/
structure SearchHit where
  id : String
  title : String
  url : String
  snippet : String
  domain : String
  score : ℝ

/-- A scraped page. -/
structure ScrapedPage where
  title : String
  text : String

/-- `url.split("/")[2]` — the authority part of a well-formed URL. (On a URL
with fewer than two slashes the source raises `IndexError`; the total model
returns `""` there, which no claim depends on.) -/
def urlDomain (url : String) : String := (url.splitOn "/").getD 2 ""

/-- The loop body of `run_task_search_and_scrape` (agentic_controller.py,
lines 116-135): skip hits with an empty or already-seen URL, record the URL
as seen, skip the hit when scraping fails, otherwise build the evidence
dictionary. `scrape url = none` models `self.scraper.scrape(url)` raising. -/
def collectLoop (scrape : String → Option ScrapedPage) :
    List SearchHit → List String → List Evidence
  | [], _ => []
  | r :: rs, seen =>
    if r.url = "" || seen.contains r.url then collectLoop scrape rs seen
    else
      match scrape r.url with
      | none => collectLoop scrape rs (r.url :: seen)
      | some page =>
        { source_id := if r.id ≠ "" then r.id else hashText r.url,
          url := r.url,
          title := if r.title ≠ "" then r.title else page.title,
          snippet := normText (if r.snippet ≠ "" then r.snippet else page.text.take 400) 400,
          text := page.text,
          domain := if r.domain ≠ "" then r.domain else urlDomain r.url,
          score := r.score,
          relevance := 0 } :: collectLoop scrape rs (r.url :: seen)

/-- Embedding of `AgenticResearchAgent.run_task_search_and_scrape`
(agentic_controller.py, lines 108-136), over the hits the search tool
returned and the scraper behaviour. -/
def runTaskSearchAndScrape (hits : List SearchHit)
    (scrape : String → Option ScrapedPage) : List Evidence :=
  collectLoop scrape hits []

/-- A Python value, as far as the claims need to distinguish them. -/
inductive PyVal where
  | pstr (s : String)
  | pnum (q : ℚ)
  | plist (items : List PyVal)
  | pdict
  | pother

/-- Dict lookup returning `none` for a missing key (`dict.get`). -/
def dictGet (k : String) : List (String × PyVal) → Option PyVal
  | [] => none
  | (k₂, v) :: rest => if k₂ = k then some v else dictGet k rest

/-- `short.get("snippets", [])` followed by slicing: the stored list when the
key holds one, `[]` when the key is absent. (A present non-list value would
make the Python slice raise; `analyze` never stores the key at all.) -/
def asList : Option PyVal → List PyVal
  | some (.plist items) => items
  | _ => []

/-- The string stored in a `PyVal` (non-strings would raise at the Python
call sites that use this; they never arise on the paths the claims cover). -/
def pvStr : PyVal → String
  | .pstr s => s
  | _ => ""

/-- The seven values `ResearchAgent.analyze` computes from its collaborators
(LLM summary, stance, heuristics); their contents never matter to the claims,
only which keys the returned dict carries. -/
structure AnalyzeValues where
  summary : String
  evidence : List String
  contradictions : List String
  credibility_score : ℚ
  knowledge_graph : PyVal
  stance : PyVal
  bias_note : String

/-- The dict literal returned by `ResearchAgent.analyze` (research_agent.py,
lines 91-100): exactly the keys `summary`, `evidence`, `contradictions`,
`credibility_score`, `knowledge_graph`, `stance`, `bias_note` — and no
`snippets` key. -/
def analyzeResultDict (v : AnalyzeValues) : List (String × PyVal) :=
  [("summary", .pstr v.summary),
   ("evidence", .plist (v.evidence.map .pstr)),
   ("contradictions", .plist (v.contradictions.map .pstr)),
   ("credibility_score", .pnum v.credibility_score),
   ("knowledge_graph", v.knowledge_graph),
   ("stance", v.stance),
   ("bias_note", .pstr v.bias_note)]

/-- One internal-sourced evidence object of the non-search branch of `run`
(agentic_controller.py, lines 245-254). -/
def internalEvidence (task : PlanTask) (i : ℕ) (sn : String) : Evidence :=
  { source_id := "internal-" ++ task.id ++ "-" ++ toString i,
    url := "",
    title := task.prompt,
    snippet := normText sn 400,
    text := sn,
    domain := "internal",
    score := 0.8,
    relevance := 0 }

/-- The per-task evidence list built inside the `run` loop
(agentic_controller.py, lines 232-255): search tasks go through
search → scrape → `normalize_and_score_evidence`; non-search tasks read the
`snippets` key of `ResearchAgent.analyze`s result and convert each snippet.
`searchPipeline` abstracts the search/scrape collaborators for the prompt;
`analyzeOf` abstracts the collaborator-computed values of `analyze` for the
synthetic article `{title: query, text: task.prompt}`. -/
noncomputable def taskEvidenceOf (searchPipeline : String → List Evidence)
    (analyzeOf : String → String → AnalyzeValues) (maxTaskResults : ℕ)
    (query : String) (task : PlanTask) : List Evidence :=
  if task.requires_search then
    normalizeAndScoreEvidence (searchPipeline task.prompt)
  else
    mapIdxFrom (fun i sn => internalEvidence task i (pvStr sn)) 0
      ((asList (dictGet "snippets"
        (analyzeResultDict (analyzeOf query task.prompt)))).take maxTaskResults)

/-- The `task_results` sequence assembled by `run`
(agentic_controller.py, lines 230-255). -/
noncomputable def runTaskResults (searchPipeline : String → List Evidence)
    (analyzeOf : String → String → AnalyzeValues) (maxTaskResults : ℕ)
    (query : String) (plan : List PlanTask) : List (PlanTask × List Evidence) :=
  plan.map (fun task =>
    (task, taskEvidenceOf searchPipeline analyzeOf maxTaskResults query task))

/-- An HTTP response of the `/agentic_detect` endpoint, as far as status and
detail are observable. -/
inductive DetectResponse where
  | success
  | httpError (status : ℕ) (detail : String)
deriving DecidableEq

/-- The body of the `try` block of `agentic_detect` (routers/detect.py,
lines 120-173): URL mode, query mode, or — when neither field is present —
`raise HTTPException(status_code=400, detail="Provide either ...")`.
A raised exception is an `Except.error` carrying `str(e)`
(for a `fastapi.HTTPException`, `str(e)` is `"<status>: <detail>"`).
The two pipelines are modelled as succeeding: the claim concerns only the
missing-fields path, which never reaches them. -/
def agenticDetectTryBody (query url : Option String) : Except String Unit :=
  match url with
  | some _ => .ok ()
  | none =>
    match query with
    | some _ => .ok ()
    | none => .error ("400: Provide either " ++ qm ++ "url" ++ qm ++ " or " ++
        qm ++ "query" ++ qm ++ ".")

/-- Embedding of the `agentic_detect` handler (routers/detect.py,
lines 113-177): the whole body sits in a `try` whose
`except Exception as e` re-raises every exception — `fastapi.HTTPException`
is itself an `Exception` subclass — as
`HTTPException(status_code=500, detail=f"Agentic detect failed: {str(e)}")`. -/
def agenticDetect (query url : Option String) : DetectResponse :=
  match agenticDetectTryBody query url with
  | .ok _ => .success
  | .error msg => .httpError 500 ("Agentic detect failed: " ++ msg)

theorem strLength_mk (cs : List Char) : (String.mk cs).length = cs.length := rfl

theorem isPrefixB_append (p t : List Char) : isPrefixB p (p ++ t) = true := by
  induction p with
  | nil => rfl
  | cons c cs ih => simp [isPrefixB, ih]

theorem containsB_of_isPrefixB {p s : List Char} (h : isPrefixB p s = true) :
    containsB p s = true := by
  cases s with
  | nil =>
    cases p with
    | nil => rfl
    | cons c cs => simp [isPrefixB] at h
  | cons c cs => simp [containsB, h]

theorem containsB_append_left {p t : List Char} (s : List Char)
    (h : containsB p t = true) : containsB p (s ++ t) = true := by
  induction s with
  | nil => simpa using h
  | cons c cs ih => simp [containsB, ih]

/-- A string sandwiched between two others is found by the substring test. -/
theorem strContains_sandwich (a b q : String) : strContains (a ++ q ++ b) q = true := by
  have h1 : isPrefixB q.data (q.data ++ b.data) = true := isPrefixB_append _ _
  have h2 : containsB q.data (q.data ++ b.data) = true := containsB_of_isPrefixB h1
  have h3 : containsB q.data (a.data ++ (q.data ++ b.data)) = true :=
    containsB_append_left _ h2
  unfold strContains
  simpa [List.append_assoc] using h3

theorem length_mapIdxFrom (f : ℕ → α → β) :
    ∀ (i : ℕ) (l : List α), (mapIdxFrom f i l).length = l.length
  | _, [] => rfl
  | i, _ :: as => by simp [mapIdxFrom, length_mapIdxFrom f (i + 1) as]

/-- C6: when the LLM capability is unavailable, `plan_tasks(query)` returns
exactly 3 tasks with ids t1, t2, t3 and roles background, evidence,
implications, where the first two require search and the third does not,
each with a query-specific prompt. -/
theorem c6_planner_fallback (q : String) :
    (planTasks PlanLLM.unavailable q).length = 3 ∧
    (planTasks PlanLLM.unavailable q).map PlanTask.id = ["t1", "t2", "t3"] ∧
    (planTasks PlanLLM.unavailable q).map PlanTask.role =
      ["background", "evidence", "implications"] ∧
    (planTasks PlanLLM.unavailable q).map PlanTask.requires_search = [true, true, false] ∧
    ∀ t ∈ planTasks PlanLLM.unavailable q, strContains t.prompt q = true := by
  refine ⟨rfl, rfl, rfl, rfl, ?_⟩
  intro t ht
  simp only [planTasks, fallbackPlanUnavailable, List.mem_cons, List.not_mem_nil,
    or_false] at ht
  rcases ht with h | h | h <;> subst h <;>
    exact strContains_sandwich _ qm q

/-- C7 counterexample: with the LLM available and answering a response whose
bracketed array parses to the empty JSON array `[]` (for example the raw
response string `"[]"`), `plan_tasks` returns the parsed array itself — the
empty plan — and not a plan of 3 to 6 tasks. -/
theorem c7_counterexample :
    planTasks (PlanLLM.parsed []) "climate change" = [] ∧
    (planTasks (PlanLLM.parsed []) "climate change").length = 0 := ⟨rfl, rfl⟩

/-- C7 (amended): `plan_tasks` is total (the source catches every exception),
and it returns either the deterministic 3-task fallback or the parsed LLM
array backfilled — whose length equals the array's length and may therefore
be 0 or exceed 6. -/
theorem c7_plan_total (llm : PlanLLM) (q : String) :
    (planTasks llm q).length = 3 ∨
    ∃ arr, llm = PlanLLM.parsed arr ∧ (planTasks llm q).length = arr.length := by
  cases llm with
  | parsed arr => exact Or.inr ⟨arr, rfl, length_mapIdxFrom _ 0 arr⟩
  | unavailable => exact Or.inl rfl
  | raises => exact Or.inl rfl
  | noArray => exact Or.inl rfl
  | badParse => exact Or.inl rfl

/-- C9: the claim says a request with neither `query` nor `url` is answered
with HTTP 400. The handler indeed raises `HTTPException(status_code=400)`,
but it does so inside its own `try` block, and `fastapi.HTTPException` is an
`Exception` subclass, so the blanket `except Exception` catches it and
re-raises it as a 500 with the wrapped message. The endpoint therefore
responds 500, never 400, on that input. -/
theorem c9_missing_fields_responds_500 :
    agenticDetect none none =
      DetectResponse.httpError 500
        ("Agentic detect failed: 400: Provide either " ++ qm ++ "url" ++ qm ++
          " or " ++ qm ++ "query" ++ qm ++ ".") ∧
    ∀ d, agenticDetect none none ≠ DetectResponse.httpError 400 d := by
  refine ⟨rfl, ?_⟩
  intro d h
  rw [show agenticDetect none none = DetectResponse.httpError 500
    ("Agentic detect failed: 400: Provide either " ++ qm ++ "url" ++ qm ++
      " or " ++ qm ++ "query" ++ qm ++ ".") from rfl] at h
  injection h with hs hd
  exact absurd hs (by norm_num)

/-- C10: a task with `requires_search = false` always yields an empty
evidence list in `run()`: the conversion loop reads the `snippets` key of
`ResearchAgent.analyze`s result, but `analyze` never returns such a key, so
`short.get("snippets", [])` is always `[]`. -/
theorem c10_no_search_evidence_empty (sp : String → List Evidence)
    (av : String → String → AnalyzeValues) (m : ℕ) (q : String)
    (plan : List PlanTask) (task : PlanTask)
    (h : task.requires_search = false) :
    taskEvidenceOf sp av m q task = [] ∧
    ∀ ev, (task, ev) ∈ runTaskResults sp av m q plan → ev = [] := by
  have hd : dictGet "snippets" (analyzeResultDict (av q task.prompt)) = none := rfl
  have hte : taskEvidenceOf sp av m q task = [] := by
    simp [taskEvidenceOf, h, hd, asList, List.take_nil, mapIdxFrom]
  refine ⟨hte, ?_⟩
  intro ev hev
  simp only [runTaskResults, List.mem_map] at hev
  obtain ⟨t, _, heq⟩ := hev
  injection heq with h1 h2
  subst h1
  exact h2 ▸ hte

/-- Values for the collaborator outputs of `analyze`, used by witnesses. -/
def wAnalyzeValues : AnalyzeValues := ⟨"", [], [], 0, .pother, .pother, ""⟩

/-- C10 witness: the fallback implications task (no search) produces an empty
evidence list. -/
theorem c10_witness :
    (⟨"t3", "implications", "p", false⟩ : PlanTask).requires_search = false ∧
    taskEvidenceOf (fun _ => []) (fun _ _ => wAnalyzeValues) 4 "q"
      ⟨"t3", "implications", "p", false⟩ = [] :=
  ⟨rfl, (c10_no_search_evidence_empty (fun _ => []) (fun _ _ => wAnalyzeValues) 4 "q"
    [] ⟨"t3", "implications", "p", false⟩ rfl).1⟩

theorem length_dropLastTok (cs : List Char) : (dropLastTok cs).length ≤ cs.length := by
  unfold dropLastTok
  split
  · simp only [List.length_take]
    omega
  · exact le_refl _

/-- The normalized snippet never exceeds the budget by more than the 3-char
ellipsis. -/
theorem normText_length_le (t : String) (limit : ℕ) :
    (normText t limit).length ≤ limit + 3 := by
  unfold normText
  split
  · exact Nat.zero_le _
  · split
    next hle => rw [strLength_mk]; omega
    next hgt =>
      rw [strLength_mk, List.length_append]
      have h1 : (dropLastTok ((joinSpace (splitWS t.data)).take limit)).length ≤ limit :=
        (length_dropLastTok _).trans (by simp [List.length_take])
      simp only [List.length_cons, List.length_nil]
      omega

/-- C8 (amended): every `EvidenceItem` produced by
`run_task_search_and_scrape` has a snippet of length at most 403 — the
400-char budget plus the 3-char ellipsis appended after the cut (not 400 as
claimed). -/
theorem c8_snippet_length (hits : List SearchHit)
    (scrape : String → Option ScrapedPage) :
    ∀ e ∈ runTaskSearchAndScrape hits scrape, e.snippet.length ≤ 403 := by
  suffices h : ∀ (rs : List SearchHit) (seen : List String),
      ∀ e ∈ collectLoop scrape rs seen, e.snippet.length ≤ 403 from h hits []
  intro rs
  induction rs with
  | nil => intro seen e he; simp [collectLoop] at he
  | cons r rs ih =>
    intro seen e he
    simp only [collectLoop] at he
    split at he
    · exact ih seen e he
    · split at he
      · exact ih _ e he
      · rcases List.mem_cons.mp he with hh | hh
        · subst hh; exact normText_length_le _ 400
        · exact ih _ e hh

/-- A scraper that always succeeds with an empty page. -/
def wScrape : String → Option ScrapedPage := fun _ => some ⟨"", ""⟩

/-- A well-behaved search hit. -/
def wHit : SearchHit := ⟨"i", "t", "http://x", "hello world", "example.com", 1⟩

/-- The evidence item `run_task_search_and_scrape` builds from `wHit`. -/
def wEvC8 : Evidence :=
  ⟨"i", "http://x", "t", normText "hello world" 400, "", "example.com", 1, 0⟩

/-- C8 witness: the amended bound evaluated on a concrete collected item. -/
theorem c8_witness :
    wEvC8 ∈ runTaskSearchAndScrape [wHit] wScrape ∧ wEvC8.snippet.length ≤ 403 := by
  have hm : wEvC8 ∈ runTaskSearchAndScrape [wHit] wScrape := by
    rw [show runTaskSearchAndScrape [wHit] wScrape = [wEvC8] from rfl]
    exact List.mem_singleton.mpr rfl
  exact ⟨hm, c8_snippet_length [wHit] wScrape wEvC8 hm⟩

/-- A 401-character snippet with no whitespace. -/
def longWord : String := String.mk (List.replicate 401 'a')

/-- A search hit whose snippet is a single 401-character word. -/
def cHitC8 : SearchHit := ⟨"i", "t", "http://x", longWord, "d", 1⟩

set_option maxRecDepth 8000 in
/-- C8 counterexample: a 401-char single-word snippet survives the cut whole
(there is no space to truncate at) and gains the ellipsis, producing a
403-character snippet — more than the claimed 400-character bound. -/
theorem c8_counterexample :
    (runTaskSearchAndScrape [cHitC8] wScrape).map (fun e => e.snippet.length) = [403] ∧
    ¬ (403 ≤ 400) := by
  constructor
  · decide
  · decide

/-- C4 counterexample: for an item with empty text the code clamps the length
to 1 before the logarithm, so the factor it uses is `log 2 / log 4001 > 0`,
not the spec's `min(1, log(1+0)/log(1+4000)) = 0`. -/
theorem c4_counterexample :
    lengthFactor 0 ≠ lengthFactorSpec 0 ∧ lengthFactor 0 ≠ 0 := by
  have h40 : (0 : ℝ) < Real.log 4001 := Real.log_pos (by norm_num)
  have h2 : (0 : ℝ) < Real.log 2 := Real.log_pos (by norm_num)
  have hlf : lengthFactor 0 = min 1 (Real.log 2 / Real.log 4001) := by
    unfold lengthFactor
    norm_num
  have hpos : 0 < lengthFactor 0 := by
    rw [hlf]
    exact lt_min one_pos (div_pos h2 h40)
  have hspec : lengthFactorSpec 0 = 0 := by
    unfold lengthFactorSpec
    norm_num [Real.log_one]
  exact ⟨by rw [hspec]; exact (ne_of_gt hpos), ne_of_gt hpos⟩

/-- C4 (amended): the length factor used by `normalize_and_score_evidence`
is `min(1, log1p(max(1, len)) / log1p(4000))`; it equals the spec formula
`min(1, log(1+len)/log(1+4000))` for every non-empty text (`len ≥ 1`), while
an empty text contributes the same factor as a 1-character text — which is
positive — rather than 0. -/
theorem c4_length_factor (n : ℕ) (h : 1 ≤ n) :
    lengthFactor n = lengthFactorSpec n ∧ lengthFactor 0 = lengthFactorSpec 1 := by
  constructor
  · unfold lengthFactor lengthFactorSpec
    rw [max_eq_right h]
  · unfold lengthFactor lengthFactorSpec
    norm_num

/-- C4 witness: the amended equality evaluated at text length 3. -/
theorem c4_witness : 1 ≤ 3 ∧ lengthFactor 3 = lengthFactorSpec 3 :=
  ⟨by norm_num, (c4_length_factor 3 (by norm_num)).1⟩

theorem round3_ge (m : ℤ) {y : ℝ} (h : (m : ℝ) / 1000 ≤ y) :
    (m : ℝ) / 1000 ≤ round3 y := by
  unfold round3
  have h1 : (m : ℝ) ≤ y * 1000 := by
    rw [div_le_iff (by norm_num)] at h
    linarith
  have h2 : m ≤ ⌊y * 1000 + 1 / 2⌋ := Int.le_floor.mpr (by push_cast; linarith)
  exact (div_le_div_right (by norm_num)).mpr (by exact_mod_cast h2)

theorem round3_le (m : ℤ) {y : ℝ} (h : y ≤ (m : ℝ) / 1000) :
    round3 y ≤ (m : ℝ) / 1000 := by
  unfold round3
  have h1 : y * 1000 ≤ (m : ℝ) := by
    rw [le_div_iff (by norm_num)] at h
    linarith
  have h2 : ⌊y * 1000 + 1 / 2⌋ ≤ m := by
    calc ⌊y * 1000 + 1 / 2⌋ ≤ ⌊(m : ℝ) + 1 / 2⌋ := Int.floor_mono (by linarith)
      _ = m := by
          rw [add_comm, Int.floor_add_int]
          norm_num
  exact (div_le_div_right (by norm_num)).mpr (by exact_mod_cast h2)

theorem round3_nonneg {y : ℝ} (h : 0 ≤ y) : 0 ≤ round3 y := by
  have := round3_ge 0 (y := y) (by norm_num; exact h)
  simpa using this

theorem round3_le_one {y : ℝ} (h : y ≤ 1) : round3 y ≤ 1 := by
  have := round3_le 1000 (y := y) (by norm_num; exact h)
  simpa using this

theorem round3_le_p95 {y : ℝ} (h : y ≤ 0.95) : round3 y ≤ 0.95 := by
  have := round3_le 950 (y := y) (by norm_num; linarith)
  calc round3 y ≤ ((950 : ℤ) : ℝ) / 1000 := this
    _ = 0.95 := by norm_num

theorem round3_lt_round3 {a b : ℝ} (h : a + 1 / 500 ≤ b) : round3 a < round3 b := by
  unfold round3
  have h2 : ⌊a * 1000 + 1 / 2⌋ + 2 ≤ ⌊b * 1000 + 1 / 2⌋ := by
    calc ⌊a * 1000 + 1 / 2⌋ + 2 = ⌊a * 1000 + 1 / 2 + ((2 : ℤ) : ℝ)⌋ :=
          (Int.floor_add_int _ _).symm
      _ ≤ ⌊b * 1000 + 1 / 2⌋ := Int.floor_mono (by push_cast; linarith)
  have h3 : ⌊a * 1000 + 1 / 2⌋ < ⌊b * 1000 + 1 / 2⌋ := by omega
  exact (div_lt_div_right (by norm_num)).mpr (by exact_mod_cast h3)

theorem lt_round3 (x : ℝ) : x - 1 / 1000 < round3 x := by
  unfold round3
  have h := Int.sub_one_lt_floor (x * 1000 + 1 / 2)
  have h2 : (x * 1000 - 1 / 2 : ℝ) < (⌊x * 1000 + 1 / 2⌋ : ℝ) := by linarith
  have h3 : (x * 1000 - 1 / 2) / 1000 < (⌊x * 1000 + 1 / 2⌋ : ℝ) / 1000 :=
    (div_lt_div_right (by norm_num)).mpr h2
  have h4 : (x * 1000 - 1 / 2) / 1000 = x - 1 / 2000 := by ring
  linarith

theorem domainReliability_bounds (u : String) :
    0.45 ≤ domainReliability u ∧ domainReliability u ≤ 0.95 := by
  simp only [domainReliability]
  split_ifs <;> norm_num

theorem contentScore_bounds (t : String) :
    0 ≤ contentScore t ∧ contentScore t ≤ 1 := by
  simp only [contentScore]
  split
  · norm_num
  · have hln0 : (0 : ℝ) ≤ min 1 (Real.log (1 + (t.length : ℝ)) / Real.log 5001) := by
      refine le_min (by norm_num) (div_nonneg ?_ ?_)
      · exact Real.log_nonneg (le_add_of_nonneg_right (Nat.cast_nonneg _))
      · exact Real.log_nonneg (by norm_num)
    have hln1 : min 1 (Real.log (1 + (t.length : ℝ)) / Real.log 5001) ≤ 1 :=
      min_le_left _ _
    have hd0 : (0 : ℝ) ≤ min 1
        (((countChar t '.' + countChar t '!' + countChar t '?' : ℕ) : ℝ) /
          max 1 ((t.length : ℝ) / 200)) := by
      refine le_min (by norm_num) (div_nonneg (by positivity) ?_)
      exact le_trans (by norm_num) (le_max_left 1 _)
    have hd1 : min 1
        (((countChar t '.' + countChar t '!' + countChar t '?' : ℕ) : ℝ) /
          max 1 ((t.length : ℝ) / 200)) ≤ 1 := min_le_left _ _
    constructor
    · exact round3_nonneg (by linarith)
    · exact round3_le_one (by linarith)

theorem kgCentralityScore_bounds (kg : Option KGData) :
    0 ≤ kgCentralityScore kg ∧ kgCentralityScore kg ≤ 0.95 := by
  cases kg with
  | none => norm_num [kgCentralityScore]
  | some g =>
    simp only [kgCentralityScore]
    split
    · norm_num
    · next hv =>
      have hn : 2 ≤ (kgVerts g).length := by omega
      have hn2 : (2 : ℝ) ≤ ((kgVerts g).length : ℝ) := by exact_mod_cast hn
      have havg : 0 ≤ ((((kgVerts g).map (kgDegree g)).sum : ℕ) : ℝ) /
          (((kgVerts g).length : ℝ) - 1) / ((kgVerts g).length : ℝ) := by
        refine div_nonneg (div_nonneg (by positivity) (by linarith)) (by positivity)
      constructor
      · exact round3_nonneg (le_min (by norm_num) (by nlinarith))
      · exact round3_le_p95 (min_le_left _ _)

theorem biasPenalty_empty : biasPenalty "" = 0 := by simp [biasPenalty]

theorem biasPenalty_highly {note : String}
    (hn : strContains (lowerStr note) "highly biased" = true) :
    biasPenalty note = 0.18 := by
  have hne : note ≠ "" := by
    intro h
    subst h
    exact absurd hn (by decide)
  unfold biasPenalty
  rw [if_neg hne]
  simp only [hn, Bool.or_true, if_true]

theorem rawCred_bounds (article : Article) (kg : Option KGData) {s : ℝ}
    (h0 : 0 ≤ s) (h1 : s ≤ 1) :
    0.135 ≤ rawCred article kg s ∧ rawCred article kg s ≤ 0.9775 := by
  obtain ⟨hd1, hd2⟩ := domainReliability_bounds article.url
  obtain ⟨hc1, hc2⟩ := contentScore_bounds article.text.trim
  obtain ⟨hk1, hk2⟩ := kgCentralityScore_bounds kg
  unfold rawCred
  constructor <;> linarith

/-- C5: holding the article, knowledge graph and stance (with support in
[0,1]) fixed, a bias note containing "highly biased" yields a strictly lower
credibility score than an empty bias note, and the pre-clamp difference is
exactly 0.18. -/
theorem c5_highly_biased_lowers_score (article : Article) (kg : Option KGData)
    (stance : Option ℝ) (note : String)
    (h0 : 0 ≤ supportScore stance) (h1 : supportScore stance ≤ 1)
    (hn : strContains (lowerStr note) "highly biased" = true) :
    credScore article kg stance note < credScore article kg stance "" ∧
    preClampCred article kg (supportScore stance) "" -
      preClampCred article kg (supportScore stance) note = 0.18 := by
  obtain ⟨hr1, hr2⟩ := rawCred_bounds article kg h0 h1
  have hpen : biasPenalty note = 0.18 := biasPenalty_highly hn
  have hpen0 : biasPenalty "" = 0 := biasPenalty_empty
  constructor
  · have he : credScore article kg stance "" =
        round3 (rawCred article kg (supportScore stance)) := by
      unfold credScore preClampCred
      rw [hpen0, sub_zero, min_eq_right (by linarith), max_eq_right (by linarith)]
    have hb : credScore article kg stance note =
        round3 (max 0 (rawCred article kg (supportScore stance) - 0.18)) := by
      unfold credScore preClampCred
      rw [hpen, min_eq_right (by linarith)]
    rw [he, hb]
    apply round3_lt_round3
    rcases le_total (rawCred article kg (supportScore stance)) 0.18 with hle | hle
    · rw [max_eq_left (by linarith)]
      linarith
    · rw [max_eq_right (by linarith)]
      linarith
  · unfold preClampCred
    rw [hpen, hpen0]
    ring

/-- C5 witness: the strict decrease evaluated at a concrete empty article, no
knowledge graph, missing stance (support defaults to 0.5) and the literal
note "highly biased". -/
theorem c5_witness :
    0 ≤ supportScore none ∧ supportScore none ≤ 1 ∧
    strContains (lowerStr "highly biased") "highly biased" = true ∧
    credScore ⟨"", "", ""⟩ none none "highly biased" <
      credScore ⟨"", "", ""⟩ none none "" :=
  ⟨by norm_num [supportScore], by norm_num [supportScore], by decide,
   (c5_highly_biased_lowers_score ⟨"", "", ""⟩ none none "highly biased"
     (by norm_num [supportScore]) (by norm_num [supportScore]) (by decide)).1⟩

theorem keyOf_setScore (x : Evidence) (s : ℝ) : keyOf { x with score := s } = keyOf x := rfl

theorem keyOf_setRelevance (e : Evidence) : keyOf (setRelevance e) = keyOf e := rfl

theorem setRelevance_idem (e : Evidence) : setRelevance (setRelevance e) = setRelevance e := rfl

theorem findVal_append (k : String) (l₁ l₂ : List (String × Evidence)) :
    findVal k (l₁ ++ l₂) = (findVal k l₁).or (findVal k l₂) := by
  induction l₁ with
  | nil => simp [findVal]
  | cons p rest ih =>
    obtain ⟨k₂, v₂⟩ := p
    simp only [List.cons_append, findVal]
    split
    · rfl
    · exact ih

theorem findVal_updateAssoc_ne (k₀ : String) (v : Evidence)
    (acc : List (String × Evidence)) (k : String) (hne : k₀ ≠ k) :
    findVal k (updateAssoc k₀ v acc) = findVal k acc := by
  induction acc with
  | nil => rfl
  | cons p rest ih =>
    obtain ⟨k₂, v₂⟩ := p
    simp only [updateAssoc]
    split
    next h =>
      subst h
      simp [findVal, hne]
    next h =>
      simp only [findVal]
      split
      · rfl
      · exact ih

theorem findVal_updateAssoc_self (k₀ : String) (v : Evidence)
    (acc : List (String × Evidence)) {ex : Evidence}
    (h : findVal k₀ acc = some ex) :
    findVal k₀ (updateAssoc k₀ v acc) = some v := by
  induction acc with
  | nil => simp [findVal] at h
  | cons p rest ih =>
    obtain ⟨k₂, v₂⟩ := p
    simp only [updateAssoc]
    by_cases hk : k₂ = k₀
    · rw [if_pos hk]
      simp [findVal, hk]
    · rw [if_neg hk]
      simp only [findVal, if_neg hk] at h ⊢
      exact ih h

theorem findVal_insertEvidence (acc : List (String × Evidence)) (e : Evidence) (k : String) :
    findVal k (insertEvidence acc e) =
      if keyOf e = k then
        match findVal k acc with
        | none => some e
        | some ex => some (mergeOne ex e)
      else findVal k acc := by
  unfold insertEvidence
  cases hfe : findVal (keyOf e) acc with
  | none =>
    rw [findVal_append]
    by_cases hk : keyOf e = k
    · subst hk
      rw [hfe]
      simp [findVal, Option.or]
    · rw [if_neg hk]
      have hnone : findVal k [(keyOf e, e)] = none := by simp [findVal, hk]
      rw [hnone]
      cases findVal k acc <;> rfl
  | some ex =>
    by_cases hk : keyOf e = k
    · subst hk
      rw [hfe, findVal_updateAssoc_self _ _ _ hfe]
      simp
    · rw [if_neg hk]
      exact findVal_updateAssoc_ne _ _ _ _ hk

/-- The running merge of one identity class, as the dedup loop performs it. -/
def mergeClassOpt : Option Evidence → List Evidence → Option Evidence
  | o, [] => o
  | none, e :: es => mergeClassOpt (some e) es
  | some ex, e :: es => mergeClassOpt (some (mergeOne ex e)) es

theorem findVal_foldl (k : String) :
    ∀ (l : List Evidence) (acc : List (String × Evidence)),
      findVal k (l.foldl insertEvidence acc) =
        mergeClassOpt (findVal k acc) (l.filter (fun e => decide (keyOf e = k)))
  | [], acc => by cases h : findVal k acc <;> simp [mergeClassOpt, h]
  | e :: es, acc => by
    simp only [List.foldl_cons, List.filter_cons]
    rw [findVal_foldl k es (insertEvidence acc e), findVal_insertEvidence]
    by_cases hk : keyOf e = k
    · have hd : (decide (keyOf e = k)) = true := by simp [hk]
      rw [if_pos hk, if_pos hd]
      cases hacc : findVal k acc with
      | none => simp [mergeClassOpt]
      | some ex => simp [mergeClassOpt]
    · rw [if_neg hk]
      simp [hk]

/-- Well-formedness of the dedup dict: insertion keys are unique and every
stored item hashes to its own key. -/
def GoodDict (acc : List (String × Evidence)) : Prop :=
  (acc.map Prod.fst).Nodup ∧ ∀ p ∈ acc, keyOf p.2 = p.1

theorem findVal_eq_none (k : String) (acc : List (String × Evidence)) :
    findVal k acc = none ↔ k ∉ acc.map Prod.fst := by
  induction acc with
  | nil => simp [findVal]
  | cons p rest ih =>
    obtain ⟨k₂, v₂⟩ := p
    simp only [findVal, List.map_cons, List.mem_cons]
    split
    next h => simp [h]
    next h =>
      have hkk : ¬(k = k₂) := fun hh => h hh.symm
      simp [hkk, ih]

theorem keys_updateAssoc (k : String) (v : Evidence) (acc : List (String × Evidence)) :
    (updateAssoc k v acc).map Prod.fst = acc.map Prod.fst := by
  induction acc with
  | nil => rfl
  | cons p rest ih =>
    obtain ⟨k₂, v₂⟩ := p
    simp only [updateAssoc]
    split <;> simp [ih]

theorem mem_updateAssoc {p : String × Evidence} {k : String} {v : Evidence}
    {acc : List (String × Evidence)} (h : p ∈ updateAssoc k v acc) :
    p ∈ acc ∨ p = (k, v) := by
  induction acc with
  | nil => simp [updateAssoc] at h
  | cons q rest ih =>
    obtain ⟨k₂, v₂⟩ := q
    simp only [updateAssoc] at h
    split at h
    next hk =>
      rcases List.mem_cons.mp h with h1 | h1
      · right
        rw [h1, hk]
      · left
        exact List.mem_cons_of_mem _ h1
    next hk =>
      rcases List.mem_cons.mp h with h1 | h1
      · left
        exact h1 ▸ List.mem_cons_self _ _
      · rcases ih h1 with h2 | h2
        · left
          exact List.mem_cons_of_mem _ h2
        · right
          exact h2

theorem findVal_mem {k : String} {v : Evidence} {acc : List (String × Evidence)}
    (h : findVal k acc = some v) : (k, v) ∈ acc := by
  induction acc with
  | nil => simp [findVal] at h
  | cons p rest ih =>
    obtain ⟨k₂, v₂⟩ := p
    simp only [findVal] at h
    split at h
    next hk =>
      injection h with hv
      subst hv
      subst hk
      exact List.mem_cons_self _ _
    next hk => exact List.mem_cons_of_mem _ (ih h)

theorem findVal_of_mem_nodup {k : String} {v : Evidence}
    {acc : List (String × Evidence)} (hnd : (acc.map Prod.fst).Nodup)
    (h : (k, v) ∈ acc) : findVal k acc = some v := by
  induction acc with
  | nil => simp at h
  | cons p rest ih =>
    obtain ⟨k₂, v₂⟩ := p
    rcases List.mem_cons.mp h with h1 | h1
    · injection h1 with h1k h1v
      subst h1k
      subst h1v
      simp [findVal]
    · have hnd2 : (k₂ :: rest.map Prod.fst).Nodup := hnd
      obtain ⟨hnm, hndr⟩ := List.nodup_cons.mp hnd2
      have hk2 : k₂ ≠ k := by
        intro hc
        subst hc
        exact hnm (List.mem_map_of_mem Prod.fst h1)
      simp only [findVal, if_neg hk2]
      exact ih hndr h1

theorem goodDict_insertEvidence {acc : List (String × Evidence)}
    (h : GoodDict acc) (e : Evidence) : GoodDict (insertEvidence acc e) := by
  obtain ⟨hnd, hky⟩ := h
  unfold insertEvidence
  cases hfe : findVal (keyOf e) acc with
  | none =>
    constructor
    · rw [List.map_append, List.map_cons, List.map_nil, List.nodup_append]
      refine ⟨hnd, List.nodup_singleton _, ?_⟩
      intro a ha hb
      rw [List.mem_singleton] at hb
      rw [findVal_eq_none] at hfe
      subst hb
      exact hfe ha
    · intro p hp
      rcases List.mem_append.mp hp with h1 | h1
      · exact hky p h1
      · rw [List.mem_singleton] at h1
        subst h1
        rfl
  | some ex =>
    constructor
    · rw [keys_updateAssoc]
      exact hnd
    · intro p hp
      rcases mem_updateAssoc hp with h1 | h1
      · exact hky p h1
      · subst h1
        show keyOf (mergeOne ex e) = keyOf e
        simp only [mergeOne, keyOf_setScore]
        split
        · rfl
        · exact hky _ (findVal_mem hfe)

theorem goodDict_dedupAssoc (l : List Evidence) : GoodDict (dedupAssoc l) := by
  suffices h : ∀ acc, GoodDict acc → GoodDict (l.foldl insertEvidence acc) from
    h [] ⟨List.nodup_nil, by simp⟩
  induction l with
  | nil => intro acc h; exact h
  | cons e es ih =>
    intro acc h
    exact ih _ (goodDict_insertEvidence h e)

theorem text_setScore (x : Evidence) (s : ℝ) :
    ({ x with score := s } : Evidence).text = x.text := rfl

theorem mergeClassOpt_some_spec :
    ∀ (es : List Evidence) (ex : Evidence),
      ∃ out, mergeClassOpt (some ex) es = some out ∧
        (∃ b ∈ ex :: es, out = { b with score := out.score }) ∧
        (∃ b ∈ ex :: es, out.score = b.score) ∧
        ∀ e₂ ∈ ex :: es, e₂.score ≤ out.score ∧ e₂.text.length ≤ out.text.length
  | [], ex =>
    ⟨ex, rfl, ⟨ex, List.mem_cons_self _ _, rfl⟩, ⟨ex, List.mem_cons_self _ _, rfl⟩,
      by
        intro e₂ he₂
        rw [List.mem_singleton.mp he₂]
        exact ⟨le_refl _, le_refl _⟩⟩
  | e :: es, ex => by
    obtain ⟨out, h1, hb, hc, hall⟩ := mergeClassOpt_some_spec es (mergeOne ex e)
    have hstep : mergeClassOpt (some ex) (e :: es) = some out := h1
    have hms : (mergeOne ex e).score = max ex.score e.score := rfl
    have hmt : ex.text.length ≤ (mergeOne ex e).text.length ∧
        e.text.length ≤ (mergeOne ex e).text.length := by
      simp only [mergeOne, text_setScore]
      split
      next hl => exact ⟨le_of_lt hl, le_refl _⟩
      next hl => exact ⟨le_refl _, le_of_not_lt hl⟩
    have hmm : mergeOne ex e = { e with score := max ex.score e.score } ∨
        mergeOne ex e = { ex with score := max ex.score e.score } := by
      simp only [mergeOne]
      split
      · exact Or.inl rfl
      · exact Or.inr rfl
    refine ⟨out, hstep, ?_, ?_, ?_⟩
    · obtain ⟨b, hbm, hbo⟩ := hb
      rcases List.mem_cons.mp hbm with h2 | h2
      · rcases hmm with hm | hm
        · refine ⟨e, List.mem_cons_of_mem _ (List.mem_cons_self _ _), ?_⟩
          rw [h2, hm] at hbo
          exact hbo
        · refine ⟨ex, List.mem_cons_self _ _, ?_⟩
          rw [h2, hm] at hbo
          exact hbo
      · exact ⟨b, List.mem_cons_of_mem _ (List.mem_cons_of_mem _ h2), hbo⟩
    · obtain ⟨c, hcm, hco⟩ := hc
      rcases List.mem_cons.mp hcm with h2 | h2
      · rw [h2, hms] at hco
        rcases max_choice ex.score e.score with hmc | hmc
        · exact ⟨ex, List.mem_cons_self _ _, by rw [hco, hmc]⟩
        · exact ⟨e, List.mem_cons_of_mem _ (List.mem_cons_self _ _), by rw [hco, hmc]⟩
      · exact ⟨c, List.mem_cons_of_mem _ (List.mem_cons_of_mem _ h2), hco⟩
    · intro e₂ he₂
      have hmerged := hall (mergeOne ex e) (List.mem_cons_self _ _)
      rcases List.mem_cons.mp he₂ with h2 | h2
      · subst h2
        constructor
        · calc e₂.score ≤ max e₂.score e.score := le_max_left _ _
            _ = (mergeOne e₂ e).score := hms.symm
            _ ≤ out.score := hmerged.1
        · exact le_trans hmt.1 hmerged.2
      · rcases List.mem_cons.mp h2 with h3 | h3
        · subst h3
          constructor
          · calc e₂.score ≤ max ex.score e₂.score := le_max_right _ _
              _ = (mergeOne ex e₂).score := hms.symm
              _ ≤ out.score := hmerged.1
          · exact le_trans hmt.2 hmerged.2
        · exact hall e₂ (List.mem_cons_of_mem _ h3)

theorem filter_values_eq (k : String) :
    ∀ (acc : List (String × Evidence)), GoodDict acc →
      (acc.map Prod.snd).filter (fun e => decide (keyOf e = k)) = (findVal k acc).toList
  | [], _ => rfl
  | (k₂, v₂) :: rest, h => by
    obtain ⟨hnd, hky⟩ := h
    have hv₂ : keyOf v₂ = k₂ := hky _ (List.mem_cons_self _ _)
    have hnd2 : (k₂ :: rest.map Prod.fst).Nodup := hnd
    obtain ⟨hnm, hndr⟩ := List.nodup_cons.mp hnd2
    have hgr : GoodDict rest := ⟨hndr, fun p hp => hky p (List.mem_cons_of_mem _ hp)⟩
    simp only [List.map_cons, List.filter_cons, findVal]
    by_cases hk : k₂ = k
    · subst hk
      have hd : (decide (keyOf v₂ = k₂)) = true := by simp [hv₂]
      rw [if_pos hd, if_pos rfl]
      have hrest : (rest.map Prod.snd).filter (fun e => decide (keyOf e = k₂)) = [] := by
        rw [List.filter_eq_nil_iff]
        intro a ha
        obtain ⟨p, hp, hpa⟩ := List.mem_map.mp ha
        have hkp : keyOf a = p.1 := by
          rw [← hpa]
          exact hky p (List.mem_cons_of_mem _ hp)
        have hp1 : p.1 ∈ rest.map Prod.fst := List.mem_map_of_mem Prod.fst hp
        intro hcon
        rw [decide_eq_true_eq] at hcon
        have hpk : p.1 = k₂ := by rw [← hkp, hcon]
        exact hnm (hpk ▸ hp1)
      rw [hrest]
      rfl
    · have hd : ¬((decide (keyOf v₂ = k)) = true) := by simp [hv₂, hk]
      rw [if_neg hd, if_neg hk]
      exact filter_values_eq k rest hgr

theorem findVal_dedupAssoc (l : List Evidence) (k : String) :
    findVal k (dedupAssoc l) =
      mergeClassOpt none (l.filter fun e => decide (keyOf e = k)) :=
  findVal_foldl k l []

theorem dedupMerge_filter (l : List Evidence) (k : String) :
    ((dedupMerge l).filter fun e => decide (keyOf e = k)) =
      (findVal k (dedupAssoc l)).toList :=
  filter_values_eq k (dedupAssoc l) (goodDict_dedupAssoc l)

theorem normalize_filter_perm (l : List Evidence) (k : String) :
    ((normalizeAndScoreEvidence l).filter (fun e => decide (keyOf e = k))).Perm
      (((dedupMerge l).filter (fun e => decide (keyOf e = k))).map setRelevance) := by
  have hp := List.mergeSort_perm ((dedupMerge l).map setRelevance) relLE
  have h1 := hp.filter (fun e => decide (keyOf e = k))
  rw [List.filter_map] at h1
  exact h1

/-- C1: `normalize_and_score_evidence` keeps at most one item per identity
key (url, else source_id, else snippet hash); when a key occurs in the input,
exactly one item with that key survives, its text is one of the duplicates'
texts of maximal length, and its score is the maximum of the duplicates'
scores. -/
theorem c1_dedup_merge (l : List Evidence) (k : String) :
    ((normalizeAndScoreEvidence l).filter (fun e => decide (keyOf e = k))).length ≤ 1 ∧
    ((∃ e ∈ l, keyOf e = k) →
      ∃ o, ((normalizeAndScoreEvidence l).filter (fun e => decide (keyOf e = k))) = [o] ∧
        (∃ b ∈ l, keyOf b = k ∧ o.text = b.text) ∧
        (∃ b ∈ l, keyOf b = k ∧ o.score = b.score) ∧
        ∀ e ∈ l, keyOf e = k → e.text.length ≤ o.text.length ∧ e.score ≤ o.score) := by
  have hperm := normalize_filter_perm l k
  have hfil := dedupMerge_filter l k
  have hclass := findVal_dedupAssoc l k
  constructor
  · rw [hperm.length_eq, List.length_map, hfil]
    cases findVal k (dedupAssoc l) <;> simp
  · rintro ⟨e₀, he₀, hk₀⟩
    obtain ⟨c, cs, hcs⟩ :
        ∃ c cs, l.filter (fun e => decide (keyOf e = k)) = c :: cs := by
      cases hq : l.filter (fun e => decide (keyOf e = k)) with
      | nil =>
        exfalso
        have hmem : e₀ ∈ l.filter (fun e => decide (keyOf e = k)) :=
          List.mem_filter.mpr ⟨he₀, by simp [hk₀]⟩
        rw [hq] at hmem
        exact List.not_mem_nil _ hmem
      | cons c cs => exact ⟨c, cs, rfl⟩
    obtain ⟨out, hout, hbex, hcex, hall⟩ := mergeClassOpt_some_spec cs c
    have hfv : findVal k (dedupAssoc l) = some out := by
      rw [hclass, hcs]
      exact hout
    have hsing : (normalizeAndScoreEvidence l).filter (fun e => decide (keyOf e = k)) =
        [setRelevance out] := by
      have hmapped : ((dedupMerge l).filter (fun e => decide (keyOf e = k))).map setRelevance =
          [setRelevance out] := by
        rw [hfil, hfv]
        rfl
      rw [hmapped] at hperm
      exact List.perm_singleton.mp hperm
    have hmem : ∀ b, b ∈ c :: cs → b ∈ l ∧ keyOf b = k := by
      intro b hb
      rw [← hcs] at hb
      have h2 := List.mem_filter.mp hb
      exact ⟨h2.1, by simpa using h2.2⟩
    refine ⟨setRelevance out, hsing, ?_, ?_, ?_⟩
    · obtain ⟨b, hb, hbo⟩ := hbex
      obtain ⟨hbl, hbk⟩ := hmem b hb
      refine ⟨b, hbl, hbk, ?_⟩
      have h3 : (setRelevance out).text = out.text := rfl
      rw [h3, hbo]
    · obtain ⟨c₂, hc₂, hco⟩ := hcex
      obtain ⟨hcl, hck⟩ := hmem c₂ hc₂
      exact ⟨c₂, hcl, hck, hco⟩
    · intro e he hke
      have hin : e ∈ c :: cs := by
        rw [← hcs]
        exact List.mem_filter.mpr ⟨he, by simp [hke]⟩
      have h2 := hall e hin
      exact ⟨h2.2, h2.1⟩

/-- Fifty characters of text. -/
def wText50 : String := String.mk (List.replicate 50 'x')

/-- Five hundred characters of text. -/
def wText500 : String := String.mk (List.replicate 500 'x')

/-- First raw item of the merge example: shared url, 50-char text, score 0.4. -/
noncomputable def wEv1 : Evidence := ⟨"s1", "u", "", "", wText50, "", 0.4, 0⟩

/-- Second raw item of the merge example: shared url, 500-char text, score 0.9. -/
noncomputable def wEv2 : Evidence := ⟨"s2", "u", "", "", wText500, "", 0.9, 0⟩

set_option maxRecDepth 20000 in
/-- C1 witness: two raw items sharing the same url with texts of length 50
and 500 and scores 0.4 and 0.9 merge into one item with text of length 500
and score 0.9. -/
theorem c1_witness :
    ∃ o, ((normalizeAndScoreEvidence [wEv1, wEv2]).filter
        (fun e => decide (keyOf e = "u"))) = [o] ∧
      o.text.length = 500 ∧ o.score = 0.9 := by
  have hk1 : keyOf wEv1 = "u" := rfl
  have hk2 : keyOf wEv2 = "u" := rfl
  have hlen1 : wEv1.text.length = 50 := rfl
  have hlen2 : wEv2.text.length = 500 := rfl
  have hs1 : wEv1.score = 0.4 := rfl
  have hs2 : wEv2.score = 0.9 := rfl
  obtain ⟨o, ho, ⟨b, hbl, hbk, hbt⟩, ⟨c, hcl, hck, hcs⟩, hall⟩ :=
    (c1_dedup_merge [wEv1, wEv2] "u").2 ⟨wEv1, List.mem_cons_self _ _, hk1⟩
  refine ⟨o, ho, ?_, ?_⟩
  · have h2 := (hall wEv2 (by simp) hk2).1
    rcases List.mem_cons.mp hbl with hb1 | hb1
    · exfalso
      rw [hlen2, hbt, hb1, hlen1] at h2
      exact absurd h2 (by norm_num)
    · rw [List.mem_singleton.mp hb1] at hbt
      rw [hbt, hlen2]
  · have h2 := (hall wEv2 (by simp) hk2).2
    rcases List.mem_cons.mp hcl with hc1 | hc1
    · exfalso
      rw [hs2, hcs, hc1, hs1] at h2
      exact absurd h2 (by norm_num)
    · rw [List.mem_singleton.mp hc1] at hcs
      rw [hcs, hs2]

theorem dedupMerge_keys_eq (l : List Evidence) :
    (dedupMerge l).map keyOf = (dedupAssoc l).map Prod.fst := by
  have h := (goodDict_dedupAssoc l).2
  unfold dedupMerge
  rw [List.map_map]
  exact List.map_congr_left (fun p hp => h p hp)

theorem nodup_keys_dedupMerge (l : List Evidence) : ((dedupMerge l).map keyOf).Nodup := by
  rw [dedupMerge_keys_eq]
  exact (goodDict_dedupAssoc l).1

theorem foldl_insert_fresh :
    ∀ (l : List Evidence) (acc : List (String × Evidence)),
      (∀ e ∈ l, findVal (keyOf e) acc = none) → (l.map keyOf).Nodup →
      l.foldl insertEvidence acc = acc ++ l.map (fun e => (keyOf e, e))
  | [], acc, _, _ => by simp
  | e :: es, acc, hf, hnd => by
    have hnd2 : (keyOf e :: es.map keyOf).Nodup := hnd
    obtain ⟨hnm, hndr⟩ := List.nodup_cons.mp hnd2
    simp only [List.foldl_cons]
    have he : insertEvidence acc e = acc ++ [(keyOf e, e)] := by
      unfold insertEvidence
      rw [hf e (List.mem_cons_self _ _)]
    rw [he]
    have hf2 : ∀ e₂ ∈ es, findVal (keyOf e₂) (acc ++ [(keyOf e, e)]) = none := by
      intro e₂ he₂
      rw [findVal_append, hf e₂ (List.mem_cons_of_mem _ he₂)]
      have hne : keyOf e ≠ keyOf e₂ := by
        intro hc
        exact hnm (hc ▸ List.mem_map_of_mem keyOf he₂)
      show findVal (keyOf e₂) [(keyOf e, e)] = none
      simp [findVal, hne]
    rw [foldl_insert_fresh es _ hf2 hndr]
    rw [List.append_assoc]
    rfl

theorem dedupMerge_of_nodup_keys {l : List Evidence} (h : (l.map keyOf).Nodup) :
    dedupMerge l = l := by
  unfold dedupMerge dedupAssoc
  rw [foldl_insert_fresh l [] (fun e _ => rfl) h]
  rw [List.nil_append, List.map_map]
  exact List.map_id' l

theorem mem_normalize_setRel {l : List Evidence} {x : Evidence}
    (hx : x ∈ normalizeAndScoreEvidence l) : setRelevance x = x := by
  unfold normalizeAndScoreEvidence at hx
  rw [List.mem_mergeSort] at hx
  obtain ⟨y, _, hy⟩ := List.mem_map.mp hx
  rw [← hy]
  exact setRelevance_idem y

theorem relLE_trans : ∀ (a b c : Evidence), relLE a b → relLE b c → relLE a c := by
  intro a b c hab hbc
  simp only [relLE, decide_eq_true_eq] at hab hbc ⊢
  exact le_trans hbc hab

theorem relLE_total : ∀ (a b : Evidence), relLE a b || relLE b a := by
  intro a b
  simp only [relLE]
  rcases le_total a.relevance b.relevance with h | h <;> simp [h]

theorem normalize_sorted (l : List Evidence) :
    (normalizeAndScoreEvidence l).Pairwise (fun a b => relLE a b) :=
  List.sorted_mergeSort relLE_trans relLE_total _

/-- C2: `normalize_and_score_evidence` is idempotent — feeding the normalized
output back in returns an identical list (same items, same relevance values,
same order): the output's keys are pairwise distinct so no merge fires,
recomputing relevance from unchanged fields reproduces it, and the stable
sort leaves the already-sorted list unchanged. -/
theorem c2_normalize_idempotent (l : List Evidence) :
    normalizeAndScoreEvidence (normalizeAndScoreEvidence l) =
      normalizeAndScoreEvidence l := by
  have hp : (normalizeAndScoreEvidence l).Perm ((dedupMerge l).map setRelevance) :=
    List.mergeSort_perm _ relLE
  have hkeys : ((normalizeAndScoreEvidence l).map keyOf).Nodup := by
    have hp2 := hp.map keyOf
    have he : ((dedupMerge l).map setRelevance).map keyOf = (dedupMerge l).map keyOf := by
      rw [List.map_map]
      rfl
    rw [he] at hp2
    exact hp2.nodup_iff.mpr (nodup_keys_dedupMerge l)
  have hmap : (normalizeAndScoreEvidence l).map setRelevance =
      normalizeAndScoreEvidence l := by
    have h1 : ∀ x ∈ normalizeAndScoreEvidence l, setRelevance x = id x :=
      fun x hx => mem_normalize_setRel hx
    rw [List.map_congr_left h1, List.map_id]
  rw [show normalizeAndScoreEvidence (normalizeAndScoreEvidence l) =
      ((dedupMerge (normalizeAndScoreEvidence l)).map setRelevance).mergeSort relLE
    from rfl]
  rw [dedupMerge_of_nodup_keys hkeys, hmap]
  exact List.mergeSort_of_sorted (normalize_sorted l)

theorem dedupMerge_score_mem {l : List Evidence} {x : Evidence}
    (hx : x ∈ dedupMerge l) : ∃ e ∈ l, x.score = e.score := by
  obtain ⟨p, hp, hps⟩ := List.mem_map.mp hx
  have hgd := goodDict_dedupAssoc l
  have hfv : findVal p.1 (dedupAssoc l) = some p.2 :=
    findVal_of_mem_nodup hgd.1 (Prod.mk.eta.symm ▸ hp)
  rw [findVal_dedupAssoc] at hfv
  cases hcs : l.filter (fun e => decide (keyOf e = p.1)) with
  | nil =>
    rw [hcs] at hfv
    exact absurd hfv (by simp [mergeClassOpt])
  | cons c cs =>
    rw [hcs] at hfv
    obtain ⟨out, hout, _, ⟨b, hbm, hbo⟩, _⟩ := mergeClassOpt_some_spec cs c
    have hov : out = p.2 := by
      have h2 : mergeClassOpt (some c) cs = some p.2 := hfv
      rw [hout] at h2
      injection h2
    have hbl : b ∈ l := by
      have hbf : b ∈ l.filter (fun e => decide (keyOf e = p.1)) := hcs ▸ hbm
      exact (List.mem_filter.mp hbf).1
    refine ⟨b, hbl, ?_⟩
    rw [← hps, ← hov]
    exact hbo

theorem lengthFactor_bounds (n : ℕ) : 0 ≤ lengthFactor n ∧ lengthFactor n ≤ 1 := by
  unfold lengthFactor
  constructor
  · refine le_min (by norm_num)
      (div_nonneg (Real.log_nonneg ?_) (Real.log_nonneg (by norm_num)))
    have h : (0 : ℝ) ≤ ((max 1 n : ℕ) : ℝ) := Nat.cast_nonneg _
    linarith
  · exact min_le_left _ _

/-- C3 (amended): when every raw score lies in [0,1] — as a well-behaved
search tool supplies — every relevance computed by
`normalize_and_score_evidence` lies in [0,1]. (For arbitrary float scores
the bound fails; see the counterexample.) -/
theorem c3_relevance_unit (l : List Evidence)
    (h : ∀ e ∈ l, 0 ≤ e.score ∧ e.score ≤ 1) :
    ∀ o ∈ normalizeAndScoreEvidence l, 0 ≤ o.relevance ∧ o.relevance ≤ 1 := by
  intro o ho
  unfold normalizeAndScoreEvidence at ho
  rw [List.mem_mergeSort] at ho
  obtain ⟨x, hx, hxo⟩ := List.mem_map.mp ho
  obtain ⟨e₀, he₀, hscore⟩ := dedupMerge_score_mem hx
  obtain ⟨hs0, hs1⟩ := h e₀ he₀
  have hsx : 0 ≤ x.score ∧ x.score ≤ 1 := by
    rw [hscore]
    exact ⟨hs0, hs1⟩
  subst hxo
  show 0 ≤ relevanceOf x ∧ relevanceOf x ≤ 1
  unfold relevanceOf
  have hdom : domScore x.domain = 0.95 ∨ domScore x.domain = 0.5 := by
    unfold domScore
    split
    · exact Or.inl rfl
    · exact Or.inr rfl
  have hd : 0 ≤ domScore x.domain ∧ domScore x.domain ≤ 1 := by
    rcases hdom with h2 | h2 <;> rw [h2] <;> norm_num
  have hlf := lengthFactor_bounds x.text.length
  constructor
  · apply round3_nonneg
    have hfac : 0 ≤ 0.6 * lengthFactor x.text.length + 0.4 := by linarith [hlf.1]
    exact mul_nonneg (mul_nonneg hd.1 hsx.1) hfac
  · apply round3_le_one
    have hds0 : 0 ≤ domScore x.domain * x.score := mul_nonneg hd.1 hsx.1
    have hds1 : domScore x.domain * x.score ≤ 1 := by nlinarith [hd.1, hd.2, hsx.1, hsx.2]
    have hfac1 : 0.6 * lengthFactor x.text.length + 0.4 ≤ 1 := by linarith [hlf.2]
    have hfac0 : 0 ≤ 0.6 * lengthFactor x.text.length + 0.4 := by linarith [hlf.1]
    nlinarith [hds0, hds1, hfac0, hfac1]

/-- C3 witness: the amended range invariant evaluated on a singleton input
with score 0.9. -/
theorem c3_witness :
    (∀ e ∈ [wEv2], 0 ≤ e.score ∧ e.score ≤ 1) ∧
    ∀ o ∈ normalizeAndScoreEvidence [wEv2], 0 ≤ o.relevance ∧ o.relevance ≤ 1 := by
  have hb : ∀ e ∈ [wEv2], 0 ≤ e.score ∧ e.score ≤ 1 := by
    intro e he
    rw [List.mem_singleton.mp he]
    have h9 : wEv2.score = 0.9 := rfl
    rw [h9]
    norm_num
  exact ⟨hb, c3_relevance_unit [wEv2] hb⟩

/-- An evidence item whose search score is the float 10.0. -/
noncomputable def cEvC3 : Evidence := ⟨"s", "u", "", "", "", "", 10, 0⟩

/-- C3 counterexample: the search tool's score field is not clamped, so a
raw item with score 10 yields relevance `round3(0.5 * 10 * (0.6*lf + 0.4))
≥ 2 - 1/1000 > 1`, outside [0,1]. -/
theorem c3_counterexample :
    normalizeAndScoreEvidence [cEvC3] = [setRelevance cEvC3] ∧
    1 < (setRelevance cEvC3).relevance := by
  constructor
  · show ((dedupMerge [cEvC3]).map setRelevance).mergeSort relLE = [setRelevance cEvC3]
    rw [show (dedupMerge [cEvC3]).map setRelevance = [setRelevance cEvC3] from rfl]
    simp
  · show 1 < relevanceOf cEvC3
    have hrw : relevanceOf cEvC3 =
        round3 (domScore "" * 10 * (0.6 * lengthFactor 0 + 0.4)) := rfl
    rw [hrw]
    have hdom : domScore "" = 0.5 := by
      have hc : ¬((strContains "" "bbc." || strContains "" "reuters." ||
          strContains "" "nytimes." || strContains "" "theguardian." ||
          strContains "" "apnews") = true) := by decide
      unfold domScore
      rw [if_neg hc]
    rw [hdom]
    have hlf := lengthFactor_bounds 0
    have hlt := lt_round3 (0.5 * 10 * (0.6 * lengthFactor 0 + 0.4))
    linarith [hlf.1, hlt]
